import Mathlib

/-!
Verification development for the detector post-processing pipeline of
`src/ai/detector/detect.py`.

The numeric model uses exact rationals (ℚ) for the float arithmetic of the
source; list indices are natural numbers.  Functions keep the source's
names where Lean allows it, and each definition's doc comment cites the
source lines it translates.
-/

/-- Line 17: confidence threshold. -/
def OBJ_THRESH : ℚ := 25/100

/-- Line 18: NMS IoU threshold. -/
def NMS_THRESH : ℚ := 45/100

/-- Line 24: configured input size (width, height). -/
def IMG_SIZE : ℕ × ℕ := (640, 640)

/-- Lines 28-34: the fixed class-name catalog (80 COCO classes, with the
source's literal spelling, including stray spaces and tabs). -/
def CLASSES : List String :=
  ["person", "bicycle", "car", "motorbike ", "aeroplane ", "bus ", "train", "truck ", "boat",
   "traffic light", "fire hydrant", "stop sign ", "parking meter", "bench", "bird", "cat",
   "dog ", "horse ", "sheep", "cow", "elephant", "bear", "zebra ", "giraffe", "backpack",
   "umbrella", "handbag", "tie", "suitcase", "frisbee", "skis", "snowboard", "sports ball",
   "kite", "baseball bat", "baseball glove", "skateboard", "surfboard", "tennis racket",
   "bottle", "wine glass", "cup", "fork", "knife ", "spoon", "bowl", "banana", "apple",
   "sandwich", "orange", "broccoli", "carrot", "hot dog", "pizza ", "donut", "cake", "chair",
   "sofa", "pottedplant", "bed", "diningtable", "toilet ", "tvmonitor", "laptop\t", "mouse\t",
   "remote ", "keyboard ", "cell phone", "microwave ", "oven ", "toaster", "sink",
   "refrigerator ", "book", "clock", "vase", "scissors ", "teddy bear ", "hair drier",
   "toothbrush "]

/-- Corner-format box `(x1, y1, x2, y2)` in pixel space. -/
structure Box where
  x1 : ℚ
  y1 : ℚ
  x2 : ℚ
  y2 : ℚ
deriving DecidableEq

instance : Inhabited Box := ⟨⟨0, 0, 0, 0⟩⟩

/-- Score lookup `scores[i]` (out-of-range reads never happen on the
source's index sets; the default is 0). -/
def sGet (s : List ℚ) (i : ℕ) : ℚ := s.getD i 0

/-- Box lookup `boxes[i]`. -/
def bGet (b : List Box) (i : ℕ) : Box := b.getD i default

/-- Lines 46-51 of `nms_boxes`: `w = x2 - x1`, `h = y2 - y1`,
`areas = w * h`.  Note: no clamping of negative widths/heights. -/
def nmsArea (b : Box) : ℚ :=
  let w := b.x2 - b.x1
  let h := b.y2 - b.y1
  w * h

/-- Lines 59-68 of `nms_boxes`: the overlap ratio `ovr` computed between the
selected box `a` and a remaining box `b` (`xx2` uses `x + w`, i.e.
`x1 + (x2 - x1)`, exactly as the source writes it). -/
def nmsOvr (a b : Box) : ℚ :=
  let xx1 := max a.x1 b.x1
  let yy1 := max a.y1 b.y1
  let xx2 := min (a.x1 + (a.x2 - a.x1)) (b.x1 + (b.x2 - b.x1))
  let yy2 := min (a.y1 + (a.y2 - a.y1)) (b.y1 + (b.y2 - b.y1))
  let w1 := max 0 (xx2 - xx1 + 1/100000)
  let h1 := max 0 (yy2 - yy1 + 1/100000)
  let inter := w1 * h1
  inter / (nmsArea a + nmsArea b - inter)

/-- Stable ascending insertion of index `i` into an already-sorted index
list whose members all come after `i` in the original order: `i` is placed
before every index of equal score. -/
def argInsert (s : List ℚ) (i : ℕ) : List ℕ → List ℕ
  | [] => [i]
  | j :: rest => if sGet s j < sGet s i then j :: argInsert s i rest else i :: j :: rest

/-- Line 52, inner call: `scores.argsort()` — indices sorted by ascending
score.  numpy's default sort (quicksort/introsort) fixes no tie order in
general: it is stable only on tie groups short enough for its insertion-sort
path (16 elements), and scrambles longer tie groups.  The model fixes the
stable tie order (ties in original index order).  Every theorem below about
the resulting candidate order is insensitive to the tie order — sortedness
by score, being a permutation, and everything downstream of `nms_boxes` hold
under ANY tie order — except where the order is evaluated on a concrete
short-tie input on which numpy provably takes the stable path (the
two-element array of the C3 counterexample). -/
def np_argsort (s : List ℚ) : List ℕ :=
  (List.range s.length).foldr (argInsert s) []

/-- Line 52: `order = scores.argsort()[::-1]`. -/
def nmsOrder (s : List ℚ) : List ℕ := (np_argsort s).reverse

/-- Lines 54-70 of `nms_boxes`: the greedy suppression loop.  Each pass
removes at least the selected head, so the loop runs at most `length`
iterations; the first argument is that iteration bound. -/
def nmsLoopFuel (b : List Box) : ℕ → List ℕ → List ℕ
  | 0, _ => []
  | _ + 1, [] => []
  | n + 1, i :: rest =>
      i :: nmsLoopFuel b n
        (rest.filter fun j => decide (nmsOvr (bGet b i) (bGet b j) ≤ NMS_THRESH))

/-- Lines 54-70 with the bound instantiated: the loop as the source runs it. -/
def nmsLoop (b : List Box) (l : List ℕ) : List ℕ := nmsLoopFuel b l.length l

/-- Lines 41-72: `nms_boxes(boxes, scores)` returns the kept indices. -/
def nms_boxes (b : List Box) (s : List ℚ) : List ℕ := nmsLoop b (nmsOrder s)

/-- `np.max` over a (nonempty) score row. -/
def npMax : List ℚ → ℚ
  | [] => 0
  | [x] => x
  | x :: y :: rest => max x (npMax (y :: rest))

/-- `np.argmax` over a score row: index of the first occurrence of the
maximum. -/
def npArgmax (l : List ℚ) : ℕ := l.findIdx fun x => decide (npMax l ≤ x)

/-- Lines 100-104 of `post_process`: xywh (center form) to xyxy (corner
form); the row holds `[cx, cy, w, h, class scores...]`. -/
def toXyxy (r : List ℚ) : Box :=
  ⟨r.getD 0 0 - r.getD 2 0 / 2, r.getD 1 0 - r.getD 3 0 / 2,
   r.getD 0 0 + r.getD 2 0 / 2, r.getD 1 0 + r.getD 3 0 / 2⟩

/-- Line 87: `class_max_scores = np.max(class_scores, axis=1)` for one
prediction row (the class scores are the row minus its first 4 entries). -/
def confScore (r : List ℚ) : ℚ := npMax (r.drop 4)

/-- Line 88: `class_ids = np.argmax(class_scores, axis=1)` for one row. -/
def classOf (r : List ℚ) : ℕ := npArgmax (r.drop 4)

/-- Lines 79-94 of `post_process`: strip the batch dimension and transpose
(lines 79-80), then keep exactly the prediction rows whose best class score
reaches `OBJ_THRESH` (lines 87-94).  The argument is `output[0]`, the
channels-by-anchors matrix. -/
def candidateFilter (output0 : List (List ℚ)) : List (List ℚ) :=
  output0.transpose.filter fun r => decide (OBJ_THRESH ≤ confScore r)

/-- The filtered rows of one image (`boxes_xywh` / `class_max_scores` /
`class_ids` after the mask of line 91, kept as whole rows). -/
def keptRows (output0 : List (List ℚ)) : List (List ℚ) := candidateFilter output0

/-- Line 100-104 applied to the masked rows: `boxes_xyxy`. -/
def boxesOf (output0 : List (List ℚ)) : List Box := (keptRows output0).map toXyxy

/-- The masked `class_ids` array. -/
def idsOf (output0 : List (List ℚ)) : List ℕ := (keptRows output0).map classOf

/-- The masked `class_max_scores` array. -/
def scoresOf (output0 : List (List ℚ)) : List ℚ := (keptRows output0).map confScore

/-- Ascending insertion into a duplicate-free list of naturals. -/
def setInsert (i : ℕ) : List ℕ → List ℕ
  | [] => [i]
  | j :: rest => if j < i then j :: setInsert i rest else i :: j :: rest

/-- Line 108: iteration of the Python builtin `set(class_ids)`.  CPython
iterates the hash-table slots in slot order; an int hashes to itself, so
distinct ids below the table size (8 for sets this small) come out in
ascending numeric order, while larger ids wrap around and their order also
depends on insertion history — it is in any case NOT the first-encountered
order of `class_ids`.  The model fixes ascending order of the distinct ids.
Every theorem below relies on this list only through its members and their
distinctness, both faithful to CPython under any iteration order, except
concrete evaluations that instantiate it on id sets below the table size
(singletons, and the pair {2, 5} of the C4 counterexample), where ascending
order is CPython's order. -/
def pySet (l : List ℕ) : List ℕ := l.dedup.foldr setInsert []

/-- Lines 109-117 of `post_process`: the body of the per-class loop for one
class id `c`: gather the rows of class `c` (`np.where(class_ids == c)`),
run `nms_boxes` on them, and keep `b[keep]`, `np.full(len(keep), c)`,
`s[keep]`. -/
def classGroup (boxes : List Box) (classIds : List ℕ) (scores : List ℚ) (c : ℕ) :
    List Box × List ℕ × List ℚ :=
  let inds := (List.range classIds.length).filter fun k => decide (classIds.getD k 0 = c)
  let b := inds.map fun k => bGet boxes k
  let s := inds.map fun k => sGet scores k
  let keep := nms_boxes b s
  (keep.map fun k => bGet b k, keep.map fun _ => c, keep.map fun k => sGet s k)

/-- Lines 106-117: all per-class groups, in `set` iteration order, with the
`if len(keep) != 0` guard of line 114. -/
def groupsOf (output0 : List (List ℚ)) : List (List Box × List ℕ × List ℚ) :=
  (((pySet (idsOf output0)).map fun c =>
      classGroup (boxesOf output0) (idsOf output0) (scoresOf output0) c).filter
    fun g => decide (g.2.1 ≠ []))

/-- Lines 74-126: `post_process`.  Returns `none` for the source's
`(None, None, None)` sentinel (lines 96-97 and 119-120), otherwise the
concatenated boxes, classes and scores of lines 122-126. -/
def post_process (output0 : List (List ℚ)) :
    Option (List Box × List ℕ × List ℚ) :=
  if keptRows output0 = [] then none
  else if groupsOf output0 = [] then none
  else some (((groupsOf output0).map fun g => g.1).flatten,
             ((groupsOf output0).map fun g => g.2.1).flatten,
             ((groupsOf output0).map fun g => g.2.2).flatten)

/-- `np.clip(q, lo, hi)`. -/
def clip (lo hi q : ℚ) : ℚ := min hi (max lo q)

/-- Python `int(q)`: truncation toward zero. -/
def pyInt (q : ℚ) : ℤ := if q < 0 then -⌊-q⌋ else ⌊q⌋

/-- One record of the emitted JSON `detections` list (lines 251-255). -/
structure Detection where
  object : String
  box : List ℤ
  probability : ℚ
deriving DecidableEq

/-- Lines 237-240 and 249-255 of `main`: clip every box column to the image
bounds, then truncate to int and emit one record per final box.  The zip of
line 249 stops at the shortest input, as in Python. -/
def buildDetections : List Box → List ℚ → List ℕ → ℕ → ℕ → List Detection
  | bx :: bs, s :: ss, c :: cs, w, h =>
      { object := CLASSES.getD c "",
        box := [pyInt (clip 0 (w : ℚ) bx.x1), pyInt (clip 0 (h : ℚ) bx.y1),
                pyInt (clip 0 (w : ℚ) bx.x2), pyInt (clip 0 (h : ℚ) bx.y2)],
        probability := s } :: buildDetections bs ss cs w h
  | _, _, _, _, _ => []

/-- Lines 129-146 of `draw`: the rectangles actually drawn on the image —
truncate to int, clamp to the image bounds, and skip any rectangle that is
empty after clamping (lines 140-142).  Tuples are `(left, top, right,
bottom)`. -/
def drawnRects (boxes : List Box) (imgW imgH : ℕ) : List (ℤ × ℤ × ℤ × ℤ) :=
  (boxes.map fun b =>
    (max 0 (pyInt b.x1), max 0 (pyInt b.y1),
     min (imgW : ℤ) (pyInt b.x2), min (imgH : ℤ) (pyInt b.y2))).filter
    fun r => decide (¬(r.2.2.1 ≤ r.1 ∨ r.2.2.2 ≤ r.2.1))

/-- The per-image JSON object of lines 258-261. -/
structure ImageResult where
  image : String
  detections : List Detection
deriving DecidableEq

/-- Lines 228-262 of `main`: run `post_process` and build the emitted JSON
object.  `detections` starts as `[]` (line 231) and is filled only when
boxes were detected (line 234's `boxes is not None and len(boxes) > 0`). -/
def processImage (imgPath : String) (output0 : List (List ℚ)) (imgW imgH : ℕ) :
    ImageResult :=
  match post_process output0 with
  | none => { image := imgPath, detections := [] }
  | some (boxes, classes, scores) =>
      if boxes = [] then { image := imgPath, detections := [] }
      else { image := imgPath, detections := buildDetections boxes scores classes imgW imgH }

/-- Definition following the spec's words (§4.3 step 2, claim C2): IoU with
each box's area clamped to be nonnegative, `area = max(0, w) * max(0, h)`,
and `inter = max(0, min(x2)-max(x1)+ε) * max(0, min(y2)-max(y1)+ε)`,
`ε = 1e-5`; `iou = inter / (area_i + area_j − inter)`.  To be compared with
the source's `nmsOvr`. -/
def iouSpecFormula (a b : Box) : ℚ :=
  let areaI := max 0 (a.x2 - a.x1) * max 0 (a.y2 - a.y1)
  let areaJ := max 0 (b.x2 - b.x1) * max 0 (b.y2 - b.y1)
  let inter := max 0 (min a.x2 b.x2 - max a.x1 b.x1 + 1/100000) *
               max 0 (min a.y2 b.y2 - max a.y1 b.y1 + 1/100000)
  inter / (areaI + areaJ - inter)

/-- The amended IoU formula (claim C2 as corrected): identical to the
spec's formula except that areas are the raw products `w * h`, with no
clamping of negative widths or heights. -/
def iouCodeFormula (a b : Box) : ℚ :=
  let areaI := (a.x2 - a.x1) * (a.y2 - a.y1)
  let areaJ := (b.x2 - b.x1) * (b.y2 - b.y1)
  let inter := max 0 (min a.x2 b.x2 - max a.x1 b.x1 + 1/100000) *
               max 0 (min a.y2 b.y2 - max a.y1 b.y1 + 1/100000)
  inter / (areaI + areaJ - inter)

/-- Ascending order on indices by score, ties by original position: the
order in which a stable ascending argsort lists indices. -/
def ascRel (s : List ℚ) (i j : ℕ) : Prop :=
  sGet s i < sGet s j ∨ (sGet s i = sGet s j ∧ i ≤ j)

/-- Descending order on indices by score, ties by REVERSE original
position: the order `scores.argsort()[::-1]` actually produces. -/
def descRel (s : List ℚ) (i j : ℕ) : Prop :=
  sGet s j < sGet s i ∨ (sGet s i = sGet s j ∧ j ≤ i)

/-! General lemmas about the embedded functions, shared by several claims. -/

/-- The overlap ratio of lines 59-68 is symmetric in the two boxes. -/
theorem nmsOvr_comm (a b : Box) : nmsOvr a b = nmsOvr b a := by
  simp only [nmsOvr]
  rw [max_comm a.x1 b.x1, max_comm a.y1 b.y1,
    min_comm (a.x1 + (a.x2 - a.x1)) (b.x1 + (b.x2 - b.x1)),
    min_comm (a.y1 + (a.y2 - a.y1)) (b.y1 + (b.y2 - b.y1)),
    add_comm (nmsArea a) (nmsArea b)]

/-- The greedy loop only ever keeps indices of its input order list. -/
theorem nmsLoopFuel_sublist (b : List Box) :
    ∀ (n : ℕ) (l : List ℕ), List.Sublist (nmsLoopFuel b n l) l := by
  intro n
  induction n with
  | zero => intro l; simp [nmsLoopFuel]
  | succ n ih =>
    intro l
    cases l with
    | nil => simp [nmsLoopFuel]
    | cons i rest =>
      show List.Sublist (i :: nmsLoopFuel b n _) (i :: rest)
      exact ((ih _).trans (List.filter_sublist _)).cons₂ i

/-- Any two indices kept by the greedy loop (in keep order) have overlap
ratio at most the threshold: a later-kept index survived the filter run
when the earlier one was selected. -/
theorem nmsLoopFuel_pairwise (b : List Box) :
    ∀ (n : ℕ) (l : List ℕ),
      List.Pairwise (fun i j => nmsOvr (bGet b i) (bGet b j) ≤ NMS_THRESH)
        (nmsLoopFuel b n l) := by
  intro n
  induction n with
  | zero => intro l; simp [nmsLoopFuel]
  | succ n ih =>
    intro l
    cases l with
    | nil => simp [nmsLoopFuel]
    | cons i rest =>
      show List.Pairwise _ (i :: nmsLoopFuel b n
        (rest.filter fun j => decide (nmsOvr (bGet b i) (bGet b j) ≤ NMS_THRESH)))
      refine List.pairwise_cons.mpr ⟨?_, ih _⟩
      intro j hj
      have hj2 := (nmsLoopFuel_sublist b n _).subset hj
      exact of_decide_eq_true (List.mem_filter.mp hj2).2

/-- Inserting an index permutes: the result holds the new index plus the
old ones. -/
theorem argInsert_perm (s : List ℚ) (i : ℕ) :
    ∀ l : List ℕ, List.Perm (argInsert s i l) (i :: l) := by
  intro l
  induction l with
  | nil => simp [argInsert]
  | cons j rest ih =>
    simp only [argInsert]
    by_cases h : sGet s j < sGet s i
    · rw [if_pos h]
      exact (ih.cons j).trans (List.Perm.swap i j rest)
    · rw [if_neg h]

/-- Stable insertion preserves sortedness when the inserted index precedes
(in original position) everything present. -/
theorem argInsert_sorted (s : List ℚ) (i : ℕ) :
    ∀ l : List ℕ, List.Pairwise (ascRel s) l → (∀ j ∈ l, i < j) →
      List.Pairwise (ascRel s) (argInsert s i l) := by
  intro l
  induction l with
  | nil =>
    intro _ _
    simp [argInsert, ascRel]
  | cons j rest ih =>
    intro hp hi
    rw [List.pairwise_cons] at hp
    obtain ⟨hjr, hrest⟩ := hp
    simp only [argInsert]
    by_cases h : sGet s j < sGet s i
    · rw [if_pos h]
      refine List.pairwise_cons.mpr
        ⟨?_, ih hrest fun k hk => hi k (List.mem_cons_of_mem j hk)⟩
      intro k hk
      rcases List.mem_cons.mp ((argInsert_perm s i rest).mem_iff.mp hk) with rfl | hk2
      · exact Or.inl h
      · exact hjr k hk2
    · rw [if_neg h]
      have hij : i < j := hi j (List.mem_cons_self j rest)
      have hsij : sGet s i ≤ sGet s j := not_lt.mp h
      refine List.pairwise_cons.mpr ⟨?_, List.pairwise_cons.mpr ⟨hjr, hrest⟩⟩
      intro k hk
      rcases List.mem_cons.mp hk with rfl | hk2
      · rcases lt_or_eq_of_le hsij with hlt | heq
        · exact Or.inl hlt
        · exact Or.inr ⟨heq, le_of_lt hij⟩
      · rcases hjr k hk2 with hlt | ⟨heq, hle⟩
        · exact Or.inl (lt_of_le_of_lt hsij hlt)
        · rcases lt_or_eq_of_le hsij with hlt2 | heq2
          · exact Or.inl (heq ▸ hlt2)
          · exact Or.inr ⟨heq2.trans heq, le_of_lt (lt_of_lt_of_le hij hle)⟩

/-- The stable argsort of a strictly increasing index list is sorted by
score (ties by original position) and is a permutation of the input. -/
theorem foldr_argInsert_sorted (s : List ℚ) :
    ∀ l : List ℕ, List.Pairwise (· < ·) l →
      List.Pairwise (ascRel s) (l.foldr (argInsert s) []) ∧
        List.Perm (l.foldr (argInsert s) []) l := by
  intro l
  induction l with
  | nil => intro _; simp
  | cons i l2 ih =>
    intro hp
    rw [List.pairwise_cons] at hp
    obtain ⟨hil, hl⟩ := hp
    obtain ⟨hs, hperm⟩ := ih hl
    refine ⟨?_, (argInsert_perm s i _).trans (hperm.cons i)⟩
    exact argInsert_sorted s i _ hs fun j hj => hil j (hperm.mem_iff.mp hj)

/-- Line 52, inner call: the argsort is ascending with ties in original
index order. -/
theorem np_argsort_sorted (s : List ℚ) : List.Pairwise (ascRel s) (np_argsort s) :=
  (foldr_argInsert_sorted s _ (List.pairwise_lt_range _)).1

/-- Line 52, inner call: the argsort is a permutation of `range n`. -/
theorem np_argsort_perm (s : List ℚ) : List.Perm (np_argsort s) (List.range s.length) :=
  (foldr_argInsert_sorted s _ (List.pairwise_lt_range _)).2

/-- Line 52: the reversed argsort is sorted descending, ties in REVERSE
index order. -/
theorem nmsOrder_sorted (s : List ℚ) : List.Pairwise (descRel s) (nmsOrder s) := by
  rw [nmsOrder, List.pairwise_reverse]
  refine (np_argsort_sorted s).imp ?_
  intro i j hij
  rcases hij with h | ⟨he, hle⟩
  · exact Or.inl h
  · exact Or.inr ⟨he.symm, hle⟩

/-- Line 52: the candidate order is a permutation of all indices. -/
theorem nmsOrder_perm (s : List ℚ) : List.Perm (nmsOrder s) (List.range s.length) :=
  (List.reverse_perm _).trans (np_argsort_perm s)

/-- The kept indices of `nms_boxes` are listed in descending score order. -/
theorem nms_boxes_pairwise_desc (b : List Box) (s : List ℚ) :
    List.Pairwise (descRel s) (nms_boxes b s) :=
  List.Pairwise.sublist (nmsLoopFuel_sublist b _ _) (nmsOrder_sorted s)

/-- `np.max` bounds every entry of the row. -/
theorem le_npMax : ∀ (l : List ℚ), ∀ x ∈ l, x ≤ npMax l := by
  intro l
  induction l with
  | nil => simp
  | cons a t ih =>
    intro x hx
    cases t with
    | nil =>
      rw [List.mem_singleton] at hx
      subst hx
      simp [npMax]
    | cons c t2 =>
      rw [show npMax (a :: c :: t2) = max a (npMax (c :: t2)) from rfl]
      rcases List.mem_cons.mp hx with rfl | hx2
      · exact le_max_left _ _
      · exact le_trans (ih x hx2) (le_max_right _ _)

/-- `np.max` of a nonempty row is attained. -/
theorem npMax_mem : ∀ (l : List ℚ), l ≠ [] → npMax l ∈ l := by
  intro l
  induction l with
  | nil => intro h; exact absurd rfl h
  | cons a t ih =>
    intro _
    cases t with
    | nil => simp [npMax]
    | cons c t2 =>
      rw [show npMax (a :: c :: t2) = max a (npMax (c :: t2)) from rfl]
      rcases max_choice a (npMax (c :: t2)) with h | h
      · rw [h]; exact List.mem_cons_self _ _
      · rw [h]; exact List.mem_cons_of_mem a (ih (by simp))

/-- `findIdx` at the maximum: the first index whose entry reaches the
maximum attains it exactly, and every earlier entry is strictly below. -/
theorem findIdx_max_spec :
    ∀ (l : List ℚ) (m : ℚ), m ∈ l → (∀ x ∈ l, x ≤ m) →
      (l.findIdx fun x => decide (m ≤ x)) < l.length ∧
      l.getD (l.findIdx fun x => decide (m ≤ x)) 0 = m ∧
      ∀ k < l.findIdx fun x => decide (m ≤ x), l.getD k 0 < m := by
  intro l
  induction l with
  | nil => intro m hm; exact absurd hm (List.not_mem_nil m)
  | cons a t ih =>
    intro m hm hb
    by_cases h : m ≤ a
    · have ha : a = m := le_antisymm (hb a (List.mem_cons_self a t)) h
      rw [List.findIdx_cons, show decide (m ≤ a) = true from decide_eq_true h]
      simp only [cond_true]
      exact ⟨Nat.succ_pos _, by simpa using ha, fun k hk => absurd hk (Nat.not_lt_zero k)⟩
    · have hat : m ∈ t := by
        rcases List.mem_cons.mp hm with rfl | h2
        · exact absurd le_rfl h
        · exact h2
      obtain ⟨h1, h2, h3⟩ := ih m hat fun x hx => hb x (List.mem_cons_of_mem a hx)
      rw [List.findIdx_cons, show decide (m ≤ a) = false from decide_eq_false h]
      simp only [cond_false]
      refine ⟨by simpa using Nat.succ_lt_succ h1, by simpa using h2, ?_⟩
      intro k hk
      cases k with
      | zero => simpa using lt_of_not_le h
      | succ k2 =>
        rw [List.getD_cons_succ]
        exact h3 k2 (by omega)

/-- Inserting into the set model permutes. -/
theorem setInsert_perm (i : ℕ) : ∀ l : List ℕ, List.Perm (setInsert i l) (i :: l) := by
  intro l
  induction l with
  | nil => simp [setInsert]
  | cons j rest ih =>
    simp only [setInsert]
    by_cases h : j < i
    · rw [if_pos h]
      exact (ih.cons j).trans (List.Perm.swap i j rest)
    · rw [if_neg h]

/-- Inserting a fresh element into a strictly sorted list keeps it strictly
sorted. -/
theorem setInsert_sorted (i : ℕ) :
    ∀ l : List ℕ, List.Pairwise (· < ·) l → i ∉ l →
      List.Pairwise (· < ·) (setInsert i l) := by
  intro l
  induction l with
  | nil => intro _ _; simp [setInsert]
  | cons j rest ih =>
    intro hp hni
    rw [List.pairwise_cons] at hp
    obtain ⟨hjr, hrest⟩ := hp
    simp only [setInsert]
    by_cases h : j < i
    · rw [if_pos h]
      refine List.pairwise_cons.mpr
        ⟨?_, ih hrest fun hc => hni (List.mem_cons_of_mem j hc)⟩
      intro k hk
      rcases List.mem_cons.mp ((setInsert_perm i rest).mem_iff.mp hk) with rfl | hk2
      · exact h
      · exact hjr k hk2
    · rw [if_neg h]
      have hij : i < j := by
        rcases Nat.lt_or_ge i j with h2 | h2
        · exact h2
        · exact absurd (Nat.lt_of_le_of_ne h2 fun he =>
            hni (he ▸ List.mem_cons_self j rest)) h
      refine List.pairwise_cons.mpr ⟨?_, List.pairwise_cons.mpr ⟨hjr, hrest⟩⟩
      intro k hk
      rcases List.mem_cons.mp hk with rfl | hk2
      · exact hij
      · exact lt_trans hij (hjr k hk2)

/-- The set model of a duplicate-free list: strictly ascending with the
same members. -/
theorem foldr_setInsert_spec :
    ∀ l : List ℕ, l.Nodup →
      List.Pairwise (· < ·) (l.foldr setInsert []) ∧
        ∀ x, x ∈ l.foldr setInsert [] ↔ x ∈ l := by
  intro l
  induction l with
  | nil => intro _; simp
  | cons i l2 ih =>
    intro hn
    rw [List.nodup_cons] at hn
    obtain ⟨hni, hn2⟩ := hn
    obtain ⟨hs, hmem⟩ := ih hn2
    constructor
    · exact setInsert_sorted i _ hs fun hc => hni ((hmem i).mp hc)
    · intro x
      simp only [List.foldr_cons]
      rw [(setInsert_perm i _).mem_iff]
      simp [hmem x]

/-- `pySet` is strictly ascending. -/
theorem pySet_sorted (l : List ℕ) : List.Pairwise (· < ·) (pySet l) :=
  (foldr_setInsert_spec _ (List.nodup_dedup l)).1

/-- `pySet` has exactly the members of its input. -/
theorem pySet_mem (l : List ℕ) (x : ℕ) : x ∈ pySet l ↔ x ∈ l := by
  rw [pySet, (foldr_setInsert_spec _ (List.nodup_dedup l)).2 x, List.mem_dedup]

/-- Python `int` of a nonnegative value is the floor. -/
theorem pyInt_of_nonneg (q : ℚ) (h : 0 ≤ q) : pyInt q = ⌊q⌋ := if_neg (not_lt.mpr h)

/-- `np.clip` lands in the clip interval. -/
theorem clip_bounds (w : ℕ) (q : ℚ) : 0 ≤ clip 0 (w : ℚ) q ∧ clip 0 (w : ℚ) q ≤ (w : ℚ) :=
  ⟨le_min (Nat.cast_nonneg w) (le_max_left 0 q), min_le_left _ _⟩

/-- `np.clip` is monotone. -/
theorem clip_mono (w : ℕ) {q q2 : ℚ} (h : q ≤ q2) :
    clip 0 (w : ℚ) q ≤ clip 0 (w : ℚ) q2 :=
  min_le_min le_rfl (max_le_max le_rfl h)

/-- Clip-then-truncate lands in the integer interval `[0, w]`. -/
theorem pyInt_clip_bounds (w : ℕ) (q : ℚ) :
    0 ≤ pyInt (clip 0 (w : ℚ) q) ∧ pyInt (clip 0 (w : ℚ) q) ≤ (w : ℤ) := by
  obtain ⟨h0, hw⟩ := clip_bounds w q
  rw [pyInt_of_nonneg _ h0]
  refine ⟨Int.floor_nonneg.mpr h0, ?_⟩
  calc ⌊clip 0 (w : ℚ) q⌋ ≤ ⌊(w : ℚ)⌋ := Int.floor_le_floor hw
    _ = (w : ℤ) := Int.floor_natCast w

/-- Clip-then-truncate is monotone. -/
theorem pyInt_clip_mono (w : ℕ) {q q2 : ℚ} (h : q ≤ q2) :
    pyInt (clip 0 (w : ℚ) q) ≤ pyInt (clip 0 (w : ℚ) q2) := by
  rw [pyInt_of_nonneg _ (clip_bounds w q).1, pyInt_of_nonneg _ (clip_bounds w q2).1]
  exact Int.floor_le_floor (clip_mono w h)

/-- Zipping the flattened class and score columns of the per-class groups
equals flattening the per-group zips, given matching group lengths. -/
theorem flatten_zip_eq (gs : List (List Box × List ℕ × List ℚ))
    (h : ∀ g ∈ gs, g.2.1.length = g.2.2.length) :
    ((gs.map fun g => g.2.1).flatten).zip ((gs.map fun g => g.2.2).flatten) =
      (gs.map fun g => g.2.1.zip g.2.2).flatten := by
  induction gs with
  | nil => simp
  | cons g gs2 ih =>
    simp only [List.map_cons, List.flatten_cons]
    rw [List.zip_append (h g (List.mem_cons_self g gs2)),
      ih fun g2 hg2 => h g2 (List.mem_cons_of_mem g hg2)]

/-! Claim theorems. -/

/-- C1 counterexample: two boxes of one class (the second degenerate, with
x2 < x1 and y2 < y1) that `nms_boxes` both keeps — the code's overlap ratio
is 25/64 ≤ 0.45 because the degenerate box contributes a positive unclamped
area 25e-12 to the denominator — while the spec's clamped-area IoU formula
gives 25/39 > 0.45.  So the claim's pairwise bound, stated with the spec's
formula, fails on the code. -/
theorem c1_counterexample :
    nms_boxes [Box.mk 0 0 (1/125000) (1/125000), Box.mk (1/200000) (1/200000) 0 0]
      [9/10, 8/10] = [0, 1] ∧
    NMS_THRESH <
      iouSpecFormula (Box.mk 0 0 (1/125000) (1/125000))
        (Box.mk (1/200000) (1/200000) 0 0) := by
  constructor
  · norm_num [nms_boxes, nmsLoop, nmsOrder, np_argsort, argInsert, sGet, bGet,
      nmsLoopFuel, nmsOvr, nmsArea, NMS_THRESH, List.range_succ]
  · norm_num [NMS_THRESH, iouSpecFormula]

/-- C1 (amended): for every input list of boxes with scores (of equal
length), the per-class NMS output is a subset of its input — every kept
index is a valid input index — and every pair of distinct kept boxes has
overlap ratio at most `NMS_THRESH` under the CODE's IoU (the one with
unclamped areas); the spec's clamped-area formula can exceed the bound on
degenerate boxes. -/
theorem c1_amended (b : List Box) (s : List ℚ) (hlen : b.length = s.length) :
    (∀ k ∈ nms_boxes b s, k < b.length) ∧
    ∀ i ∈ nms_boxes b s, ∀ j ∈ nms_boxes b s, i ≠ j →
      nmsOvr (bGet b i) (bGet b j) ≤ NMS_THRESH := by
  constructor
  · intro k hk
    have h1 : k ∈ nmsOrder s := (nmsLoopFuel_sublist b _ _).subset hk
    have h2 : k ∈ List.range s.length := (nmsOrder_perm s).mem_iff.mp h1
    rw [hlen]
    exact List.mem_range.mp h2
  · have hp := nmsLoopFuel_pairwise b (nmsOrder s).length (nmsOrder s)
    have hsymm : Symmetric fun i j => nmsOvr (bGet b i) (bGet b j) ≤ NMS_THRESH := by
      intro i j hij
      rw [nmsOvr_comm]
      exact hij
    exact fun i hi j hj hne => List.Pairwise.forall hsymm hp hi hj hne

/-- Witness for C1 (amended) at a concrete one-box input. -/
theorem c1_amended_witness :
    (∀ k ∈ nms_boxes [Box.mk 0 0 1 1] [9/10], k < ([Box.mk 0 0 1 1] : List Box).length) ∧
    ∀ i ∈ nms_boxes [Box.mk 0 0 1 1] [9/10], ∀ j ∈ nms_boxes [Box.mk 0 0 1 1] [9/10],
      i ≠ j → nmsOvr (bGet [Box.mk 0 0 1 1] i) (bGet [Box.mk 0 0 1 1] j) ≤ NMS_THRESH :=
  c1_amended [Box.mk 0 0 1 1] [9/10] rfl

/-- C2 counterexample: on a degenerate box (negative width and height) the
code's overlap ratio differs from the claim's clamped-area formula
(25/64 versus 25/39), because line 51 computes `areas = w * h` without any
`max(0, ·)` clamping. -/
theorem c2_counterexample :
    nmsOvr (Box.mk 0 0 (1/125000) (1/125000)) (Box.mk (1/200000) (1/200000) 0 0) ≠
      iouSpecFormula (Box.mk 0 0 (1/125000) (1/125000))
        (Box.mk (1/200000) (1/200000) 0 0) := by
  norm_num [nmsOvr, nmsArea, iouSpecFormula]

/-- C2 (amended): the code's overlap ratio equals
`inter / (area_i + area_j − inter)` with `inter` as the claim states it
(`ε = 1e-5`, clamped at 0) but with each area the raw product `w * h`,
NOT clamped to be nonnegative. -/
theorem c2_amended (a b : Box) : nmsOvr a b = iouCodeFormula a b := by
  have hx : ∀ u v : ℚ, u + (v - u) = v := fun u v => by ring
  simp only [nmsOvr, iouCodeFormula, nmsArea, hx]

/-- C3 counterexample: for the tied score array `[1/2, 1/2]` the order
produced by line 52 (`scores.argsort()[::-1]`, a stable ascending sort then
reversed) is `[1, 0]` — the tie is broken by REVERSE original candidate
order, not by original candidate order `[0, 1]` as the claim states. -/
theorem c3_counterexample :
    nmsOrder [1/2, 1/2] = [1, 0] ∧ ([1, 0] : List ℕ) ≠ [0, 1] := by
  constructor
  · norm_num [nmsOrder, np_argsort, argInsert, sGet, List.range_succ]
  · decide

/-- C3 (amended): the candidate ordering of line 52 lists the candidate
indices in (weakly) descending confidence order and is a permutation of all
of them; candidates of equal confidence are NOT ordered by original
candidate order — on the counterexample's two-element tied array, where
numpy provably takes its stable insertion-sort path and line 52 then
reverses the result wholesale, ties come out in REVERSE original order, and
on longer tie groups numpy's default non-stable quicksort leaves the tie
order unspecified.  This theorem states the tie-order-independent part,
which holds under any tie order numpy may produce. -/
theorem c3_amended (s : List ℚ) :
    List.Pairwise (fun i j => sGet s j ≤ sGet s i) (nmsOrder s) ∧
      List.Perm (nmsOrder s) (List.range s.length) := by
  refine ⟨(nmsOrder_sorted s).imp ?_, nmsOrder_perm s⟩
  intro i j hij
  rcases hij with hlt | ⟨he, _⟩
  · exact le_of_lt hlt
  · exact le_of_eq he.symm

/-- The formatted-output length is the box count: no box is dropped from
the JSON list, empty-after-clipping or not. -/
theorem buildDetections_length :
    ∀ (boxes : List Box) (scores : List ℚ) (classes : List ℕ) (w h : ℕ),
      scores.length = boxes.length → classes.length = boxes.length →
      (buildDetections boxes scores classes w h).length = boxes.length := by
  intro boxes
  induction boxes with
  | nil => intro scores classes w h _ _; rfl
  | cons bx bs ih =>
    intro scores classes w h h1 h2
    cases scores with
    | nil => simp at h1
    | cons s ss =>
      cases classes with
      | nil => simp at h2
      | cons c cs =>
        simp only [buildDetections, List.length_cons]
        rw [ih ss cs w h (by simpa using h1) (by simpa using h2)]

/-- C5 counterexample: a box entirely outside the image becomes the empty
box `[0,0,0,0]` (right ≤ left) after clipping, yet it is still emitted in
the JSON detections list — the formatter does NOT omit it, contradicting
the claim.  (Only `draw` skips it; see the amended theorem.) -/
theorem c5_counterexample :
    buildDetections [Box.mk (-50) (-50) (-10) (-10)] [3/4] [0] 640 640 =
      [{ object := "person", box := [0, 0, 0, 0], probability := 3/4 }] := by
  norm_num [buildDetections, clip, pyInt, CLASSES]

/-- C5 (amended): the formatter clips each box to `[0,width]×[0,height]`
before integer truncation, but boxes that become empty after clipping are
only skipped when DRAWING the annotation (every drawn rectangle is
nonempty); the emitted JSON detections list keeps every final box (its
length equals the box count). -/
theorem c5_amended (boxes : List Box) (scores : List ℚ) (classes : List ℕ) (w h : ℕ)
    (h1 : scores.length = boxes.length) (h2 : classes.length = boxes.length) :
    (buildDetections boxes scores classes w h).length = boxes.length ∧
    ∀ l t r bo, (l, t, r, bo) ∈ drawnRects boxes w h → l < r ∧ t < bo := by
  refine ⟨buildDetections_length boxes scores classes w h h1 h2, ?_⟩
  intro l t r bo hmem
  have h3 := of_decide_eq_true (List.mem_filter.mp hmem).2
  push_neg at h3
  exact ⟨h3.1, h3.2⟩

/-- Witness for C5 (amended): the out-of-bounds box is still counted in the
emitted list, and nothing empty is drawn. -/
theorem c5_amended_witness :
    (buildDetections [Box.mk (-50) (-50) (-10) (-10)] [3/4] [0] 640 640).length =
      ([Box.mk (-50) (-50) (-10) (-10)] : List Box).length ∧
    ∀ l t r bo, (l, t, r, bo) ∈ drawnRects [Box.mk (-50) (-50) (-10) (-10)] 640 640 →
      l < r ∧ t < bo :=
  c5_amended [Box.mk (-50) (-50) (-10) (-10)] [3/4] [0] 640 640 rfl rfl

/-- C7 (confirmed): the candidate filter of lines 87-94 keeps a prediction
row if and only if its best class score reaches `OBJ_THRESH`; with zero
anchors it returns the empty list; and the class id of any row is the
argmax of its class scores with ties broken by the lowest class index (the
entry at `classOf` attains the max and every earlier entry is strictly
below it). -/
theorem c7_candidate_filter :
    (∀ out0 : List (List ℚ), ∀ r ∈ candidateFilter out0, OBJ_THRESH ≤ confScore r) ∧
    (∀ out0 : List (List ℚ), ∀ r ∈ out0.transpose,
      OBJ_THRESH ≤ confScore r → r ∈ candidateFilter out0) ∧
    (∀ out0 : List (List ℚ), out0.transpose = [] → candidateFilter out0 = []) ∧
    (∀ r : List ℚ, r.drop 4 ≠ [] →
      classOf r < (r.drop 4).length ∧
      (r.drop 4).getD (classOf r) 0 = confScore r ∧
      ∀ k < classOf r, (r.drop 4).getD k 0 < confScore r) := by
  refine ⟨?_, ?_, ?_, ?_⟩
  · intro out0 r hr
    exact of_decide_eq_true (List.mem_filter.mp hr).2
  · intro out0 r hr hc
    exact List.mem_filter.mpr ⟨hr, decide_eq_true hc⟩
  · intro out0 h0
    rw [candidateFilter, h0]
    rfl
  · intro r hne
    exact findIdx_max_spec (r.drop 4) (npMax (r.drop 4)) (npMax_mem _ hne) (le_npMax _)

/-- Witness for C7 at concrete inputs: a kept row reaches the threshold; a
row above the threshold is kept; the zero-anchor tensor filters to empty;
and on the tied score row `[7/8, 7/8]` the argmax is class 0 (lowest
index). -/
theorem c7_candidate_filter_witness :
    OBJ_THRESH ≤ confScore [0, 0, 0, 0, 3/4] ∧
    [0, 0, 0, 0, (3:ℚ)/4] ∈ candidateFilter [[0], [0], [0], [0], [3/4]] ∧
    candidateFilter ([[], [], [], [], []] : List (List ℚ)) = [] ∧
    (classOf [0, 0, 0, 0, (7:ℚ)/8, 7/8] <
        (([0, 0, 0, 0, (7:ℚ)/8, 7/8] : List ℚ).drop 4).length ∧
      (([0, 0, 0, 0, (7:ℚ)/8, 7/8] : List ℚ).drop 4).getD
          (classOf [0, 0, 0, 0, (7:ℚ)/8, 7/8]) 0 =
        confScore [0, 0, 0, 0, (7:ℚ)/8, 7/8] ∧
      ∀ k < classOf [0, 0, 0, 0, (7:ℚ)/8, 7/8],
        (([0, 0, 0, 0, (7:ℚ)/8, 7/8] : List ℚ).drop 4).getD k 0 <
          confScore [0, 0, 0, 0, (7:ℚ)/8, 7/8]) := by
  have hmem : [0, 0, 0, 0, (3:ℚ)/4] ∈ candidateFilter [[0], [0], [0], [0], [3/4]] := by
    have ht : List.transpose [[(0:ℚ)], [0], [0], [0], [3/4]] = [[0, 0, 0, 0, 3/4]] := rfl
    refine c7_candidate_filter.2.1 [[0], [0], [0], [0], [3/4]] _ ?_ ?_
    · rw [ht]
      exact List.mem_cons_self _ _
    · norm_num [confScore, npMax, OBJ_THRESH]
  refine ⟨c7_candidate_filter.1 [[0], [0], [0], [0], [3/4]] _ hmem, hmem,
    c7_candidate_filter.2.2.1 [[], [], [], [], []] rfl,
    c7_candidate_filter.2.2.2 [0, 0, 0, 0, (7:ℚ)/8, 7/8] (by simp)⟩

/-- C8 (confirmed): when `post_process` reports no detections, the emitted
per-image JSON object still carries a `detections` field, holding the empty
list — never a missing field (the `ImageResult` record always has it) and
never an error. -/
theorem c8_empty_detections (path : String) (out0 : List (List ℚ)) (w h : ℕ)
    (hnone : post_process out0 = none) :
    processImage path out0 w h = { image := path, detections := [] } := by
  simp only [processImage, hnone]

/-- Witness for C8: an all-zero-score single-anchor tensor yields the
empty detections list. -/
theorem c8_empty_detections_witness :
    processImage "a.jpg" [[0], [0], [0], [0], [0]] 640 640 =
      { image := "a.jpg", detections := [] } :=
  c8_empty_detections "a.jpg" [[0], [0], [0], [0], [0]] 640 640 (by
    have hk : keptRows [[(0:ℚ)], [0], [0], [0], [0]] = [] := by
      have ht : List.transpose [[(0:ℚ)], [0], [0], [0], [0]] = [[0, 0, 0, 0, 0]] := rfl
      rw [keptRows, candidateFilter, ht]
      norm_num [confScore, npMax, OBJ_THRESH]
    rw [post_process, if_pos hk])

/-- C10 (confirmed): every emitted detection's box is four integers, each
within `[0, width]` (x coordinates) resp. `[0, height]` (y coordinates);
and whenever the source box was well-formed (x1 ≤ x2, y1 ≤ y2), the emitted
box satisfies left ≤ right and top ≤ bottom, because clipping and floor
truncation are monotone. -/
theorem c10_box_bounds :
    ∀ (bs : List Box) (ss : List ℚ) (cs : List ℕ) (w h : ℕ) (i : ℕ) (d : Detection),
      (buildDetections bs ss cs w h)[i]? = some d →
      ∃ l t r bo, d.box = [l, t, r, bo] ∧
        0 ≤ l ∧ l ≤ (w : ℤ) ∧ 0 ≤ r ∧ r ≤ (w : ℤ) ∧
        0 ≤ t ∧ t ≤ (h : ℤ) ∧ 0 ≤ bo ∧ bo ≤ (h : ℤ) ∧
        ((bGet bs i).x1 ≤ (bGet bs i).x2 → l ≤ r) ∧
        ((bGet bs i).y1 ≤ (bGet bs i).y2 → t ≤ bo) := by
  intro bs
  induction bs with
  | nil =>
    intro ss cs w h i d hd
    rw [show buildDetections [] ss cs w h = [] from rfl] at hd
    simp at hd
  | cons bx bs2 ih =>
    intro ss cs w h i d hd
    cases ss with
    | nil =>
      rw [show buildDetections (bx :: bs2) [] cs w h = [] from rfl] at hd
      simp at hd
    | cons s ss2 =>
      cases cs with
      | nil =>
        rw [show buildDetections (bx :: bs2) (s :: ss2) [] w h = [] from rfl] at hd
        simp at hd
      | cons c cs2 =>
        cases i with
        | zero =>
          rw [show buildDetections (bx :: bs2) (s :: ss2) (c :: cs2) w h =
              { object := CLASSES.getD c "",
                box := [pyInt (clip 0 (w : ℚ) bx.x1), pyInt (clip 0 (h : ℚ) bx.y1),
                        pyInt (clip 0 (w : ℚ) bx.x2), pyInt (clip 0 (h : ℚ) bx.y2)],
                probability := s } :: buildDetections bs2 ss2 cs2 w h from rfl] at hd
          rw [List.getElem?_cons_zero] at hd
          obtain rfl := Option.some.inj hd
          refine ⟨_, _, _, _, rfl, (pyInt_clip_bounds w bx.x1).1, (pyInt_clip_bounds w bx.x1).2,
            (pyInt_clip_bounds w bx.x2).1, (pyInt_clip_bounds w bx.x2).2,
            (pyInt_clip_bounds h bx.y1).1, (pyInt_clip_bounds h bx.y1).2,
            (pyInt_clip_bounds h bx.y2).1, (pyInt_clip_bounds h bx.y2).2, ?_, ?_⟩
          · intro hx
            exact pyInt_clip_mono w hx
          · intro hy
            exact pyInt_clip_mono h hy
        | succ i2 =>
          rw [show buildDetections (bx :: bs2) (s :: ss2) (c :: cs2) w h =
              { object := CLASSES.getD c "",
                box := [pyInt (clip 0 (w : ℚ) bx.x1), pyInt (clip 0 (h : ℚ) bx.y1),
                        pyInt (clip 0 (w : ℚ) bx.x2), pyInt (clip 0 (h : ℚ) bx.y2)],
                probability := s } :: buildDetections bs2 ss2 cs2 w h from rfl,
            List.getElem?_cons_succ] at hd
          have := ih ss2 cs2 w h i2 d hd
          simpa [bGet, List.getD_cons_succ] using this

/-- Witness for C10 at a concrete in-bounds box. -/
theorem c10_box_bounds_witness :
    ∃ l t r bo, (Detection.mk "person" [1, 2, 3, 4] (3/4)).box = [l, t, r, bo] ∧
      0 ≤ l ∧ l ≤ ((640 : ℕ) : ℤ) ∧ 0 ≤ r ∧ r ≤ ((640 : ℕ) : ℤ) ∧
      0 ≤ t ∧ t ≤ ((640 : ℕ) : ℤ) ∧ 0 ≤ bo ∧ bo ≤ ((640 : ℕ) : ℤ) ∧
      ((bGet [Box.mk 1 2 3 4] 0).x1 ≤ (bGet [Box.mk 1 2 3 4] 0).x2 → l ≤ r) ∧
      ((bGet [Box.mk 1 2 3 4] 0).y1 ≤ (bGet [Box.mk 1 2 3 4] 0).y2 → t ≤ bo) :=
  c10_box_bounds [Box.mk 1 2 3 4] [3/4] [0] 640 640 0
    (Detection.mk "person" [1, 2, 3, 4] (3/4))
    (by norm_num [buildDetections, clip, pyInt, CLASSES])

/-- On a nonempty score list the greedy loop always keeps the head of the
sorted order: `nms_boxes` never returns empty. -/
theorem nms_boxes_cons (b : List Box) (s : List ℚ) (hs : s ≠ []) :
    ∃ h0 tl, nmsOrder s = h0 :: tl ∧
      nms_boxes b s = h0 :: nmsLoopFuel b tl.length
        (tl.filter fun j => decide (nmsOvr (bGet b h0) (bGet b j) ≤ NMS_THRESH)) := by
  have hlen : (nmsOrder s).length = s.length := by
    rw [(nmsOrder_perm s).length_eq, List.length_range]
  have hne : nmsOrder s ≠ [] := by
    intro h0
    rw [h0] at hlen
    exact hs (List.length_eq_zero.mp hlen.symm)
  obtain ⟨h0, tl, ht⟩ := List.exists_cons_of_ne_nil hne
  refine ⟨h0, tl, ht, ?_⟩
  rw [nms_boxes, nmsLoop, ht]
  rfl

/-- Whenever any row passes the confidence filter, the per-class loop
produces at least one nonempty group, so the line 119 guard never fires. -/
theorem groupsOf_ne_nil (out0 : List (List ℚ)) (hne : keptRows out0 ≠ []) :
    groupsOf out0 ≠ [] := by
  obtain ⟨r0, krest, hk⟩ := List.exists_cons_of_ne_nil hne
  have hc0 : classOf r0 ∈ pySet (idsOf out0) := by
    rw [pySet_mem, idsOf, hk]
    exact List.mem_map_of_mem _ (List.mem_cons_self _ _)
  have hlen : 0 < (idsOf out0).length := by
    rw [idsOf, hk]
    simp
  have hgetd : (idsOf out0).getD 0 0 = classOf r0 := by
    rw [idsOf, hk]
    rfl
  have hzero : (0 : ℕ) ∈ (List.range (idsOf out0).length).filter
      fun k => decide ((idsOf out0).getD k 0 = classOf r0) :=
    List.mem_filter.mpr ⟨List.mem_range.mpr hlen, decide_eq_true hgetd⟩
  have hsne : (((List.range (idsOf out0).length).filter
      fun k => decide ((idsOf out0).getD k 0 = classOf r0)).map
        fun k => sGet (scoresOf out0) k) ≠ ([] : List ℚ) := by
    simp only [ne_eq, List.map_eq_nil_iff]
    exact List.ne_nil_of_mem hzero
  obtain ⟨h0, tl, hord, hkeep⟩ := nms_boxes_cons
    (((List.range (idsOf out0).length).filter
      fun k => decide ((idsOf out0).getD k 0 = classOf r0)).map
        fun k => bGet (boxesOf out0) k)
    (((List.range (idsOf out0).length).filter
      fun k => decide ((idsOf out0).getD k 0 = classOf r0)).map
        fun k => sGet (scoresOf out0) k)
    hsne
  have hgne : (classGroup (boxesOf out0) (idsOf out0) (scoresOf out0) (classOf r0)).2.1 ≠ [] := by
    simp only [classGroup]
    rw [hkeep]
    simp
  have hmem2 : classGroup (boxesOf out0) (idsOf out0) (scoresOf out0) (classOf r0) ∈
      groupsOf out0 := by
    rw [groupsOf]
    exact List.mem_filter.mpr ⟨List.mem_map_of_mem _ hc0, decide_eq_true hgne⟩
  exact List.ne_nil_of_mem hmem2

/-- `post_process` reports the no-detections sentinel exactly when no
prediction row reaches the confidence threshold. -/
theorem post_process_none_iff (out0 : List (List ℚ)) :
    post_process out0 = none ↔ ∀ r ∈ out0.transpose, confScore r < OBJ_THRESH := by
  constructor
  · intro hn
    by_cases hkk : keptRows out0 = []
    · intro r hr
      rw [keptRows, candidateFilter, List.filter_eq_nil_iff] at hkk
      exact not_le.mp fun hc => hkk r hr (decide_eq_true hc)
    · exfalso
      rw [post_process, if_neg hkk, if_neg (groupsOf_ne_nil out0 hkk)] at hn
      exact Option.some_ne_none _ hn
  · intro hall
    have hkk : keptRows out0 = [] := by
      rw [keptRows, candidateFilter, List.filter_eq_nil_iff]
      intro r hr hd
      exact absurd (of_decide_eq_true hd) (not_le.mpr (hall r hr))
    rw [post_process, if_pos hkk]

/-- C9 (confirmed): on every nonempty per-class group, NMS keeps at least
the first box of the sorted order, which attains the maximal score; and
`post_process` returns the `(None, None, None)` sentinel if and only if no
candidate passes the confidence threshold. -/
theorem c9_first_kept :
    (∀ (b : List Box) (s : List ℚ), s ≠ [] →
      ∃ tl, nms_boxes b s = (nmsOrder s).headD 0 :: tl ∧
        ∀ k < s.length, sGet s k ≤ sGet s ((nmsOrder s).headD 0)) ∧
    (∀ out0 : List (List ℚ),
      post_process out0 = none ↔ ∀ r ∈ out0.transpose, confScore r < OBJ_THRESH) := by
  refine ⟨?_, post_process_none_iff⟩
  intro b s hs
  obtain ⟨h0, tl, hord, hkeep⟩ := nms_boxes_cons b s hs
  refine ⟨_, by rw [hkeep, hord, List.headD_cons], ?_⟩
  intro k hk
  rw [hord, List.headD_cons]
  have hsort := nmsOrder_sorted s
  rw [hord] at hsort
  have hkmem : k ∈ nmsOrder s := (nmsOrder_perm s).mem_iff.mpr (List.mem_range.mpr hk)
  rw [hord] at hkmem
  rcases List.mem_cons.mp hkmem with rfl | hk2
  · exact le_refl _
  · rcases (List.pairwise_cons.mp hsort).1 k hk2 with hlt | ⟨he, _⟩
    · exact le_of_lt hlt
    · exact le_of_eq he.symm

/-- Witness for C9: a singleton group keeps its only box, and the all-zero
single-anchor tensor is reported as no-detections. -/
theorem c9_first_kept_witness :
    (∃ tl, nms_boxes [Box.mk 0 0 1 1] [(3:ℚ)/4] = (nmsOrder [(3:ℚ)/4]).headD 0 :: tl ∧
      ∀ k < ([(3:ℚ)/4] : List ℚ).length,
        sGet [(3:ℚ)/4] k ≤ sGet [(3:ℚ)/4] ((nmsOrder [(3:ℚ)/4]).headD 0)) ∧
    (post_process [[0], [0], [0], [0], [0]] = none ↔
      ∀ r ∈ ([[0], [0], [0], [0], [0]] : List (List ℚ)).transpose,
        confScore r < OBJ_THRESH) :=
  ⟨c9_first_kept.1 [Box.mk 0 0 1 1] [(3:ℚ)/4] (by simp),
   c9_first_kept.2 [[0], [0], [0], [0], [0]]⟩

/-- Decoding a shape-inconsistent tensor (5 channels instead of 84, one
anchor instead of 8400) succeeds silently with a normal detection.  Shared
evaluation used by the C6 counterexample and witness. -/
theorem post_process_bad_shape_eval :
    post_process [[1], [2], [4], [6], [3/4]] =
      some ([Box.mk (-1) (-1) 3 5], [0], [3/4]) := by
  have hk : keptRows [[(1:ℚ)], [2], [4], [6], [3/4]] = [[1, 2, 4, 6, 3/4]] := by
    have ht : List.transpose [[(1:ℚ)], [2], [4], [6], [3/4]] = [[1, 2, 4, 6, 3/4]] := rfl
    rw [keptRows, candidateFilter, ht]
    norm_num [confScore, npMax, OBJ_THRESH]
  have hids : idsOf [[(1:ℚ)], [2], [4], [6], [3/4]] = [0] := by
    rw [idsOf, hk]
    norm_num [classOf, npArgmax, npMax, List.findIdx_cons]
  have hbx : boxesOf [[(1:ℚ)], [2], [4], [6], [3/4]] = [Box.mk (-1) (-1) 3 5] := by
    rw [boxesOf, hk]
    norm_num [toXyxy]
  have hsc : scoresOf [[(1:ℚ)], [2], [4], [6], [3/4]] = [3/4] := by
    rw [scoresOf, hk]
    norm_num [confScore, npMax]
  have hg : classGroup [Box.mk (-1) (-1) 3 5] [0] [(3:ℚ)/4] 0 =
      ([Box.mk (-1) (-1) 3 5], [0], [3/4]) := rfl
  rw [post_process, groupsOf, hk, hids, hbx, hsc, pySet]
  simp [setInsert, hg]

/-- C6 counterexample: a raw tensor whose dimensions are inconsistent with
the configured anchor layout (5 channels and a single anchor, against the
documented `(1, 84, 8400)` layout whose 8400 = 80·80 + 40·40 + 20·20) is
decoded with no error of any kind: `post_process` silently produces a
normal detection instead of failing with a ShapeMismatch and skipping the
image.  The embedded decoder has no failure outcome at all — `none` is the
no-detections sentinel, not an error. -/
theorem c6_counterexample :
    post_process [[1], [2], [4], [6], [3/4]] =
      some ([Box.mk (-1) (-1) 3 5], [0], [3/4]) ∧
    post_process [[1], [2], [4], [6], [3/4]] ≠ none := by
  refine ⟨post_process_bad_shape_eval, ?_⟩
  rw [post_process_bad_shape_eval]
  simp

/-- C6 (amended): the decoder performs no shape validation whatsoever.  For
EVERY single-anchor five-channel tensor — a shape inconsistent with the
configured anchor layout — whose score passes the threshold, decoding
silently succeeds and emits the decoded box; no ShapeMismatch error exists
and no image is skipped. -/
theorem c6_amended (cx cy w h s : ℚ) (hs : OBJ_THRESH ≤ s) :
    post_process [[cx], [cy], [w], [h], [s]] =
      some ([Box.mk (cx - w/2) (cy - h/2) (cx + w/2) (cy + h/2)], [0], [s]) := by
  have ht : List.transpose [[cx], [cy], [w], [h], [s]] = [[cx, cy, w, h, s]] := rfl
  have hd : decide (OBJ_THRESH ≤ confScore [cx, cy, w, h, s]) = true :=
    decide_eq_true (by rw [show confScore [cx, cy, w, h, s] = s from rfl]; exact hs)
  have hk : keptRows [[cx], [cy], [w], [h], [s]] = [[cx, cy, w, h, s]] := by
    rw [keptRows, candidateFilter, ht]
    simp [List.filter_cons, hd]
  have hid : classOf [cx, cy, w, h, s] = 0 := by
    rw [classOf, npArgmax]
    rw [show ([cx, cy, w, h, s] : List ℚ).drop 4 = [s] from rfl]
    rw [show npMax [s] = s from rfl, List.findIdx_cons]
    rw [show decide (s ≤ s) = true from decide_eq_true le_rfl]
    rfl
  have hids : idsOf [[cx], [cy], [w], [h], [s]] = [0] := by
    rw [idsOf, hk]
    simp [hid]
  have hbx : boxesOf [[cx], [cy], [w], [h], [s]] =
      [Box.mk (cx - w/2) (cy - h/2) (cx + w/2) (cy + h/2)] := by
    rw [boxesOf, hk]
    rfl
  have hsc : scoresOf [[cx], [cy], [w], [h], [s]] = [s] := by
    rw [scoresOf, hk]
    rfl
  have hg : classGroup [Box.mk (cx - w/2) (cy - h/2) (cx + w/2) (cy + h/2)] [0] [s] 0 =
      ([Box.mk (cx - w/2) (cy - h/2) (cx + w/2) (cy + h/2)], [0], [s]) := rfl
  rw [post_process, groupsOf, hk, hids, hbx, hsc]
  rw [show pySet [0] = [0] from rfl]
  simp [hg]

/-- Witness for C6 (amended) at a concrete inconsistent tensor. -/
theorem c6_amended_witness :
    post_process [[320], [320], [100], [100], [7/8]] =
      some ([Box.mk (320 - 100/2) (320 - 100/2) (320 + 100/2) (320 + 100/2)],
        [0], [7/8]) :=
  c6_amended 320 320 100 100 (7/8) (by norm_num [OBJ_THRESH])

/-- Every element of `groupsOf` is the per-class group of some class id. -/
theorem groupsOf_mem (out0 : List (List ℚ)) (g : List Box × List ℕ × List ℚ)
    (hg : g ∈ groupsOf out0) :
    ∃ c, g = classGroup (boxesOf out0) (idsOf out0) (scoresOf out0) c := by
  obtain ⟨c, _, hc⟩ := List.mem_map.mp (List.mem_filter.mp hg).1
  exact ⟨c, hc.symm⟩

/-- A group's class column and score column have equal length. -/
theorem classGroup_lengths (boxes : List Box) (classIds : List ℕ) (scores : List ℚ)
    (c : ℕ) :
    (classGroup boxes classIds scores c).2.1.length =
      (classGroup boxes classIds scores c).2.2.length := by
  simp [classGroup]

/-- Every entry of a group's class column is the group's class id. -/
theorem classGroup_classes_mem (boxes : List Box) (classIds : List ℕ) (scores : List ℚ)
    (c : ℕ) (x : ℕ) (hx : x ∈ (classGroup boxes classIds scores c).2.1) : x = c := by
  simp only [classGroup] at hx
  obtain ⟨k, _, hk⟩ := List.mem_map.mp hx
  exact hk.symm

/-- Within one group, any two zipped (class, score) pairs carry the same
class and their scores are in descending order; this holds under any order
the argsort may give tied scores, since the kept indices are descending by
score regardless. -/
theorem classGroup_zip_pairwise (boxes : List Box) (classIds : List ℕ) (scores : List ℚ)
    (c : ℕ) :
    List.Pairwise (fun p q : ℕ × ℚ => p.1 = q.1 → q.2 ≤ p.2)
      ((classGroup boxes classIds scores c).2.1.zip
        (classGroup boxes classIds scores c).2.2) := by
  simp only [classGroup]
  rw [List.zip_map', List.pairwise_map]
  refine (nms_boxes_pairwise_desc _ _).imp ?_
  intro k1 k2 hk _
  rcases hk with hlt | ⟨he, _⟩
  · exact le_of_lt hlt
  · exact le_of_eq he.symm

/-- The distinct class ids of the set model, without any order: the members
of `pySet` are pairwise different (faithful to CPython, whose set iteration
yields each element exactly once, under any iteration order). -/
theorem pySet_nodup (l : List ℕ) : (pySet l).Nodup :=
  (pySet_sorted l).imp fun h => Nat.ne_of_lt h

/-- Across the group list, class ids are pairwise different: each distinct
class id produces exactly one group.  This relies only on the distinctness
of the set model, not on its iteration order. -/
theorem groupsOf_classes_ne (out0 : List (List ℚ)) :
    List.Pairwise (fun g g2 => ∀ x ∈ g.2.1, ∀ y ∈ g2.2.1, x ≠ y) (groupsOf out0) := by
  rw [groupsOf]
  refine List.Pairwise.filter _ ?_
  refine List.Pairwise.map _ ?_ (pySet_nodup (idsOf out0))
  intro c1 c2 hc x hx y hy
  rw [classGroup_classes_mem _ _ _ _ _ hx, classGroup_classes_mem _ _ _ _ _ hy]
  exact hc

/-- A filter after a map is a map after the composed filter. -/
theorem filter_of_map {α β : Type} (p : β → Bool) (f : α → β) :
    ∀ l : List α, (l.map f).filter p = (l.filter fun c => p (f c)).map f := by
  intro l
  induction l with
  | nil => rfl
  | cons c l2 ih =>
    by_cases h : p (f c)
    · simp [List.filter_cons, h, ih]
    · simp [List.filter_cons, h, ih]

/-- The group list is the per-class group map over the duplicate-free list
of class ids that yield a nonempty keep. -/
theorem groupsOf_eq_map (out0 : List (List ℚ)) :
    groupsOf out0 = ((pySet (idsOf out0)).filter fun c =>
      decide ((classGroup (boxesOf out0) (idsOf out0) (scoresOf out0) c).2.1 ≠ [])).map
        fun c => classGroup (boxesOf out0) (idsOf out0) (scoresOf out0) c := by
  rw [groupsOf, filter_of_map]

/-- C4 (amended): the merged `post_process` result is NOT ordered by first
encounter of the class ids: it concatenates one per-class NMS group per
distinct filtered class id, in CPython `set`-iteration order (ascending
numeric order for ids below the hash-table size, as in the counterexample;
implementation-defined in general); within each class the boxes appear in
descending-score selection order.  Formally, the order-independent content:
the emitted classes and scores are the concatenation of per-class groups
over SOME duplicate-free list of class ids of the filtered set, and any two
emitted detections of the same class appear in descending-score order. -/
theorem c4_amended (out0 : List (List ℚ)) (bs : List Box) (cls : List ℕ) (ss : List ℚ)
    (hp : post_process out0 = some (bs, cls, ss)) :
    (∃ cs0 : List ℕ, cs0.Nodup ∧ (∀ c ∈ cs0, c ∈ idsOf out0) ∧
      cls = (cs0.map fun c =>
        (classGroup (boxesOf out0) (idsOf out0) (scoresOf out0) c).2.1).flatten ∧
      ss = (cs0.map fun c =>
        (classGroup (boxesOf out0) (idsOf out0) (scoresOf out0) c).2.2).flatten) ∧
    List.Pairwise (fun p q : ℕ × ℚ => p.1 = q.1 → q.2 ≤ p.2) (cls.zip ss) := by
  rw [post_process] at hp
  by_cases h1 : keptRows out0 = []
  · rw [if_pos h1] at hp
    exact absurd hp (by simp)
  rw [if_neg h1] at hp
  by_cases h2 : groupsOf out0 = []
  · rw [if_pos h2] at hp
    exact absurd hp (by simp)
  rw [if_neg h2] at hp
  simp only [Option.some.injEq, Prod.mk.injEq] at hp
  obtain ⟨-, hcls, hss⟩ := hp
  subst hcls
  subst hss
  constructor
  · refine ⟨(pySet (idsOf out0)).filter fun c =>
      decide ((classGroup (boxesOf out0) (idsOf out0) (scoresOf out0) c).2.1 ≠ []),
      List.Nodup.filter _ (pySet_nodup (idsOf out0)), ?_, ?_, ?_⟩
    · intro c hc
      exact (pySet_mem _ _).mp (List.mem_filter.mp hc).1
    · rw [groupsOf_eq_map, List.map_map]
      rfl
    · rw [groupsOf_eq_map, List.map_map]
      rfl
  · rw [flatten_zip_eq _ fun g hg => by
      obtain ⟨c, rfl⟩ := groupsOf_mem out0 g hg
      exact classGroup_lengths _ _ _ _]
    rw [List.pairwise_flatten]
    constructor
    · intro zl hzl
      obtain ⟨g, hgmem, rfl⟩ := List.mem_map.mp hzl
      obtain ⟨c, rfl⟩ := groupsOf_mem out0 g hgmem
      exact classGroup_zip_pairwise _ _ _ _
    · refine List.Pairwise.map _ ?_ (groupsOf_classes_ne out0)
      intro g g2 hgg p hp2 q hq2
      obtain ⟨p1, p2⟩ := p
      obtain ⟨q1, q2⟩ := q
      intro hpq
      exact absurd hpq (hgg p1 (List.of_mem_zip hp2).1 q1 (List.of_mem_zip hq2).1)

/-- Evaluation of `post_process` on a two-anchor tensor whose filtered
candidates carry class ids in first-encountered order [5, 2] (anchor 0 is
class 5 with score 7/8, anchor 1 is class 2 with score 3/4).  Shared by the
C4 counterexample and the C4 witness. -/
theorem post_process_two_classes_eval :
    post_process [[100, 300], [100, 300], [10, 10], [10, 10], [0, 0], [0, 0],
        [0, 3/4], [0, 0], [0, 0], [7/8, 0]] =
      some ([Box.mk 295 295 305 305, Box.mk 95 95 105 105], [2, 5], [3/4, 7/8]) := by
  have ht : List.transpose [[(100:ℚ), 300], [100, 300], [10, 10], [10, 10], [0, 0],
      [0, 0], [0, 3/4], [0, 0], [0, 0], [7/8, 0]] =
      [[100, 100, 10, 10, 0, 0, 0, 0, 0, 7/8], [300, 300, 10, 10, 0, 0, 3/4, 0, 0, 0]] := rfl
  have hk : keptRows [[(100:ℚ), 300], [100, 300], [10, 10], [10, 10], [0, 0], [0, 0],
      [0, 3/4], [0, 0], [0, 0], [7/8, 0]] =
      [[100, 100, 10, 10, 0, 0, 0, 0, 0, 7/8], [300, 300, 10, 10, 0, 0, 3/4, 0, 0, 0]] := by
    rw [keptRows, candidateFilter, ht]
    norm_num [confScore, npMax, OBJ_THRESH]
  have hids : idsOf [[(100:ℚ), 300], [100, 300], [10, 10], [10, 10], [0, 0], [0, 0],
      [0, 3/4], [0, 0], [0, 0], [7/8, 0]] = [5, 2] := by
    rw [idsOf, hk]
    norm_num [classOf, npArgmax, npMax, List.findIdx_cons]
  have hbx : boxesOf [[(100:ℚ), 300], [100, 300], [10, 10], [10, 10], [0, 0], [0, 0],
      [0, 3/4], [0, 0], [0, 0], [7/8, 0]] =
      [Box.mk 95 95 105 105, Box.mk 295 295 305 305] := by
    rw [boxesOf, hk]
    norm_num [toXyxy]
  have hsc : scoresOf [[(100:ℚ), 300], [100, 300], [10, 10], [10, 10], [0, 0], [0, 0],
      [0, 3/4], [0, 0], [0, 0], [7/8, 0]] = [7/8, 3/4] := by
    rw [scoresOf, hk]
    norm_num [confScore, npMax]
  have hg2 : classGroup [Box.mk 95 95 105 105, Box.mk 295 295 305 305] [5, 2]
      [(7:ℚ)/8, 3/4] 2 = ([Box.mk 295 295 305 305], [2], [3/4]) := rfl
  have hg5 : classGroup [Box.mk 95 95 105 105, Box.mk 295 295 305 305] [5, 2]
      [(7:ℚ)/8, 3/4] 5 = ([Box.mk 95 95 105 105], [5], [7/8]) := rfl
  have hps : pySet [5, 2] = [2, 5] := by decide
  rw [post_process, groupsOf, hk, hids, hbx, hsc, hps]
  simp [hg2, hg5]

/-- C4 counterexample: on the two-anchor input whose filtered candidates
have class ids first encountered in the order [5, 2], the merged result
lists the class-2 group BEFORE the class-5 group — `set(class_ids)`
iteration order, not first-encountered order — so the claim's ordering
statement fails on the code. -/
theorem c4_counterexample :
    post_process [[100, 300], [100, 300], [10, 10], [10, 10], [0, 0], [0, 0],
        [0, 3/4], [0, 0], [0, 0], [7/8, 0]] =
      some ([Box.mk 295 295 305 305, Box.mk 95 95 105 105], [2, 5], [3/4, 7/8]) ∧
    ([2, 5] : List ℕ) ≠ [5, 2] :=
  ⟨post_process_two_classes_eval, by decide⟩

/-- Witness for C4 (amended) on the concrete two-class tensor. -/
theorem c4_amended_witness :
    (∃ cs0 : List ℕ, cs0.Nodup ∧
      (∀ c ∈ cs0, c ∈ idsOf [[100, 300], [100, 300], [10, 10], [10, 10], [0, 0], [0, 0],
        [0, 3/4], [0, 0], [0, 0], [7/8, 0]]) ∧
      ([2, 5] : List ℕ) = (cs0.map fun c =>
        (classGroup
          (boxesOf [[100, 300], [100, 300], [10, 10], [10, 10], [0, 0], [0, 0],
            [0, 3/4], [0, 0], [0, 0], [7/8, 0]])
          (idsOf [[100, 300], [100, 300], [10, 10], [10, 10], [0, 0], [0, 0],
            [0, 3/4], [0, 0], [0, 0], [7/8, 0]])
          (scoresOf [[100, 300], [100, 300], [10, 10], [10, 10], [0, 0], [0, 0],
            [0, 3/4], [0, 0], [0, 0], [7/8, 0]]) c).2.1).flatten ∧
      ([3/4, 7/8] : List ℚ) = (cs0.map fun c =>
        (classGroup
          (boxesOf [[100, 300], [100, 300], [10, 10], [10, 10], [0, 0], [0, 0],
            [0, 3/4], [0, 0], [0, 0], [7/8, 0]])
          (idsOf [[100, 300], [100, 300], [10, 10], [10, 10], [0, 0], [0, 0],
            [0, 3/4], [0, 0], [0, 0], [7/8, 0]])
          (scoresOf [[100, 300], [100, 300], [10, 10], [10, 10], [0, 0], [0, 0],
            [0, 3/4], [0, 0], [0, 0], [7/8, 0]]) c).2.2).flatten) ∧
    List.Pairwise (fun p q : ℕ × ℚ => p.1 = q.1 → q.2 ≤ p.2)
      (([2, 5] : List ℕ).zip ([3/4, 7/8] : List ℚ)) :=
  c4_amended [[100, 300], [100, 300], [10, 10], [10, 10], [0, 0], [0, 0],
      [0, 3/4], [0, 0], [0, 0], [7/8, 0]]
    [Box.mk 295 295 305 305, Box.mk 95 95 105 105] [2, 5] [3/4, 7/8]
    post_process_two_classes_eval
